import Mathlib

/-!
Shallow embedding of src/optimizer.py: a decoupled-weight-decay Adam
optimizer (AdamW) operating on parameter tensors. Tensors are modelled as
lists of rationals; the elementwise square root of the source is an
abstract function argument. The per-parameter state dictionary keyed by
parameter identity is modelled as an association list keyed by the pair
(group index, parameter index). A sparse-gradient failure aborts the
remaining iteration; updates performed before the failure persist, which
matches in-place mutation followed by an exception in the source.
-/

namespace AdamW

/-- Gradient tensor: a sparseness flag plus its dense values. -/
structure GradT where
  isSparse : Bool
  vals : List ℚ
  deriving DecidableEq

/-- A parameter: its data tensor and an optionally present gradient. -/
structure ParamData where
  data : List ℚ
  grad : Option GradT
  deriving DecidableEq

/-- Per-parameter optimizer state: step count and the two moments. -/
structure PState where
  step : ℕ
  m : List ℚ
  v : List ℚ
  deriving DecidableEq

/-- Hyperparameters of one parameter group. -/
structure Hyper where
  lr : ℚ
  beta1 : ℚ
  beta2 : ℚ
  eps : ℚ
  weightDecay : ℚ
  correctBias : Bool
  deriving DecidableEq

/-- One parameter group: its parameters and their shared hyperparameters. -/
structure Group where
  params : List ParamData
  hyper : Hyper
  deriving DecidableEq

/-- Key of the per-parameter state store: group index and parameter index. -/
abbrev Key := ℕ × ℕ

/-- The state store of the optimizer, keyed by parameter identity. -/
abbrev Store := List (Key × PState)

/-- Lookup of a key in the state store. -/
def lookupStore : Store → Key → Option PState
  | [], _ => none
  | (k0, st0) :: rest, k => if k0 = k then some st0 else lookupStore rest k

/-- Insert or overwrite a key in the state store. -/
def insertStore : Store → Key → PState → Store
  | [], k, st => [(k, st)]
  | (k0, st0) :: rest, k, st =>
      if k0 = k then (k, st) :: rest else (k0, st0) :: insertStore rest k st

/-- Zero tensor of a given length, as produced by torch.zeros_like. -/
def zeros (n : ℕ) : List ℚ := List.replicate n 0

/-- Fresh state for a parameter of a given length: step 0, zero moments
(source lines 51 to 55). -/
def initState (n : ℕ) : PState := ⟨0, zeros n, zeros n⟩

/-- First-moment update, source line 64: m gets beta1 * m + (1 - beta1) * g. -/
def ema1 (beta1 : ℚ) (m g : List ℚ) : List ℚ :=
  List.zipWith (fun mi gi => beta1 * mi + (1 - beta1) * gi) m g

/-- Second-moment update, source line 65: v gets beta2 * v + (1 - beta2) * g * g. -/
def ema2 (beta2 : ℚ) (v g : List ℚ) : List ℚ :=
  List.zipWith (fun vi gi => beta2 * vi + (1 - beta2) * (gi * gi)) v g

/-- Bias-corrected first moment (source lines 68 to 73): divide by
1 - beta1 ^ t when correctBias is set, otherwise the raw moment. -/
def mHat (h : Hyper) (t : ℕ) (m : List ℚ) : List ℚ :=
  if h.correctBias then m.map (fun x => x / (1 - h.beta1 ^ t)) else m

/-- Bias-corrected second moment (source lines 68 to 73). -/
def vHat (h : Hyper) (t : ℕ) (v : List ℚ) : List ℚ :=
  if h.correctBias then v.map (fun x => x / (1 - h.beta2 ^ t)) else v

/-- Elementwise update magnitude, source line 77:
lr * mh / (sqrt vh + eps). -/
def deltas (sq : ℚ → ℚ) (lr eps : ℚ) (mh vh : List ℚ) : List ℚ :=
  List.zipWith (fun mi vi => lr * mi / (sq vi + eps)) mh vh

/-- Decoupled weight decay, source lines 81 to 82: when weightDecay is
nonzero, p gets p + (-lr * weightDecay) * p elementwise. -/
def decay (h : Hyper) (p : List ℚ) : List ℚ :=
  if h.weightDecay ≠ 0 then p.map (fun x => x - h.lr * h.weightDecay * x) else p

/-- Parameter data after the gradient step of source line 80 and before
the decay of lines 81 to 82: p gets p - update, with update the
elementwise magnitude of line 77 built from the new moments and the
incremented step count. -/
def gradStep (sq : ℚ → ℚ) (h : Hyper) (pdata gvals : List ℚ) (st : PState) :
    List ℚ :=
  let t := st.step + 1
  let m := ema1 h.beta1 st.m gvals
  let v := ema2 h.beta2 st.v gvals
  let upd := deltas sq h.lr h.eps (mHat h t m) (vHat h t v)
  List.zipWith (fun x u => x - u) pdata upd

/-- One update application to a single parameter with a dense gradient,
source lines 57 to 82: increment the step count, update the moments,
bias-correct, subtract the update, then apply decoupled decay. Returns the
new parameter data and the new stored state. -/
def updateOne (sq : ℚ → ℚ) (h : Hyper) (pdata gvals : List ℚ) (st : PState) :
    List ℚ × PState :=
  (decay h (gradStep sq h pdata gvals st),
   ⟨st.step + 1, ema1 h.beta1 st.m gvals, ema2 h.beta2 st.v gvals⟩)

/-- Inner loop of step over the parameters of one group (source lines 41
to 82). Parameters are processed in order at keys (gi, pi), (gi, pi+1) and
so on. A parameter without a gradient is skipped. A sparse gradient stops
processing: the boolean component is the raised-error flag, and the
returned parameters and store keep every update made before the failure,
with the failing parameter and all later ones untouched. -/
def runParams (sq : ℚ → ℚ) (h : Hyper) (gi : ℕ) :
    ℕ → Store → List ParamData → List ParamData × Store × Bool
  | _, store, [] => ([], store, false)
  | pi, store, p :: rest =>
    match p.grad with
    | none =>
        let r := runParams sq h gi (pi + 1) store rest
        (p :: r.1, r.2.1, r.2.2)
    | some g =>
        if g.isSparse then (p :: rest, store, true)
        else
          let st0 := (lookupStore store (gi, pi)).getD (initState p.data.length)
          let r0 := updateOne sq h p.data g.vals st0
          let r := runParams sq h gi (pi + 1) (insertStore store (gi, pi) r0.2) rest
          ({ p with data := r0.1 } :: r.1, r.2.1, r.2.2)

/-- Outer loop of step over the parameter groups (source line 34). On a
raised error the remaining groups are untouched. -/
def runGroups (sq : ℚ → ℚ) : ℕ → Store → List Group → List Group × Store × Bool
  | _, store, [] => ([], store, false)
  | gi, store, g :: rest =>
    let r := runParams sq g.hyper gi 0 store g.params
    if r.2.2 then ({ g with params := r.1 } :: rest, r.2.1, true)
    else
      let r2 := runGroups sq (gi + 1) r.2.1 rest
      ({ g with params := r.1 } :: r2.1, r2.2.1, r2.2.2)

/-- Result of one step call: the updated groups and store, the
raised-error flag, and the returned loss. -/
structure StepOut (α : Type) where
  groups : List Group
  store : Store
  sparseErr : Bool
  loss : Option α
  deriving DecidableEq

/-- The step method (source lines 28 to 84). The optional closure may
mutate the world (in the source it typically recomputes gradients); it is
invoked once, before the update loops, and its first component is the loss
that step returns. -/
def step (sq : ℚ → ℚ) {α : Type} (closure : Option (List Group → α × List Group))
    (gs : List Group) (store : Store) : StepOut α :=
  let pre : Option α × List Group :=
    match closure with
    | none => (none, gs)
    | some c => ((c gs).1, (c gs).2)
  let r := runGroups sq 0 store pre.2
  ⟨r.1, r.2.1, r.2.2, pre.1⟩

/-- One closure-free step call, viewed as a transformer of the world
(groups plus store). -/
def stepOnce (sq : ℚ → ℚ) (w : List Group × Store) : List Group × Store :=
  let r := runGroups sq 0 w.2 w.1
  (r.1, r.2.1)

/-- Iterated closure-free step calls. -/
def stepIter (sq : ℚ → ℚ) : ℕ → List Group × Store → List Group × Store
  | 0, w => w
  | n + 1, w => stepOnce sq (stepIter sq n w)

/-- Constructor validation and hyperparameter storage, source lines 17 to
26. Failure is the InvalidConfiguration error. -/
def initAdamW (lr : ℚ) (betas : ℚ × ℚ) (eps weightDecay : ℚ) (correctBias : Bool) :
    Except Unit Hyper :=
  if lr < 0 then .error ()
  else if ¬(0 ≤ betas.1 ∧ betas.1 < 1) then .error ()
  else if ¬(0 ≤ betas.2 ∧ betas.2 < 1) then .error ()
  else if ¬(0 ≤ eps) then .error ()
  else .ok ⟨lr, betas.1, betas.2, eps, weightDecay, correctBias⟩

/-- Looking up the key just inserted returns the inserted state. -/
theorem lookupStore_insertStore_self (s : Store) (k : Key) (st : PState) :
    lookupStore (insertStore s k st) k = some st := by
  induction s with
  | nil => simp [insertStore, lookupStore]
  | cons e rest ih =>
      by_cases hk : e.1 = k <;>
        simp [insertStore, lookupStore, hk, ih]

/-- Looking up a different key is unaffected by an insertion. -/
theorem lookupStore_insertStore_ne (s : Store) (k k' : Key) (st : PState)
    (hne : k ≠ k') : lookupStore (insertStore s k st) k' = lookupStore s k' := by
  induction s with
  | nil => simp [insertStore, lookupStore, hne]
  | cons e rest ih =>
      by_cases hk : e.1 = k
      · simp [insertStore, lookupStore, hk, hne]
      · simp [insertStore, lookupStore, hk, ih]

/-- The inner loop writes only keys of the current group at parameter
indices at or past the current one; every other key keeps its binding. -/
theorem runParams_store_stable (sq : ℚ → ℚ) (h : Hyper) (gi : ℕ)
    (ps : List ParamData) :
    ∀ (pi : ℕ) (store : Store) (k : Key), k.1 ≠ gi ∨ k.2 < pi →
      lookupStore (runParams sq h gi pi store ps).2.1 k = lookupStore store k := by
  induction ps with
  | nil => intro pi store k hk; simp [runParams]
  | cons p rest ih =>
      intro pi store k hk
      match hg : p.grad with
      | none =>
          simp only [runParams, hg]
          exact ih (pi + 1) store k (hk.imp id (by omega))
      | some g =>
          by_cases hs : g.isSparse
          · simp [runParams, hg, hs]
          · have hne : ((gi, pi) : Key) ≠ k := by
              intro he
              rcases hk with hk | hk
              · exact hk (by rw [← he])
              · rw [← he] at hk; omega
            simp only [runParams, hg, hs, if_neg Bool.false_ne_true]
            rw [ih (pi + 1) _ k (hk.imp id (by omega)),
              lookupStore_insertStore_ne _ _ _ _ hne]

/-- Characterization of the inner loop when every present gradient is
dense: no error is raised, and the parameter at index j with gradient g is
mapped, independently of all other parameters, to the result of one
update application on its own data and its own stored state, while its
key in the store receives the new state. -/
theorem runParams_spec (sq : ℚ → ℚ) (h : Hyper) (gi : ℕ) (ps : List ParamData) :
    ∀ (pi : ℕ) (store : Store),
      (∀ p ∈ ps, ∀ g, p.grad = some g → g.isSparse = false) →
      (runParams sq h gi pi store ps).2.2 = false ∧
      ∀ j p g, ps.get? j = some p → p.grad = some g →
        (runParams sq h gi pi store ps).1.get? j = some { p with data :=
          (updateOne sq h p.data g.vals
            ((lookupStore store (gi, pi + j)).getD (initState p.data.length))).1 } ∧
        lookupStore (runParams sq h gi pi store ps).2.1 (gi, pi + j) =
          some (updateOne sq h p.data g.vals
            ((lookupStore store (gi, pi + j)).getD (initState p.data.length))).2 := by
  induction ps with
  | nil =>
      intro pi store _
      refine ⟨by simp [runParams], ?_⟩
      intro j p g hj
      simp at hj
  | cons p rest ih =>
      intro pi store hd
      have hdrest : ∀ q ∈ rest, ∀ g, q.grad = some g → g.isSparse = false :=
        fun q hq => hd q (List.mem_cons_of_mem _ hq)
      match hg : p.grad with
      | none =>
          obtain ⟨iherr, ihget⟩ := ih (pi + 1) store hdrest
          refine ⟨by simpa [runParams, hg] using iherr, ?_⟩
          intro j q g hj hgq
          match j with
          | 0 =>
              simp at hj
              rw [← hj] at hgq
              rw [hg] at hgq
              cases hgq
          | j + 1 =>
              simp only [List.get?_cons_succ] at hj
              have harith : pi + (j + 1) = (pi + 1) + j := by omega
              obtain ⟨h1, h2⟩ := ihget j q g hj hgq
              refine ⟨?_, ?_⟩
              · simpa [runParams, hg, harith] using h1
              · simpa [runParams, hg, harith] using h2
      | some g =>
          have hs : g.isSparse = false := hd p (List.mem_cons_self _ _) g hg
          set st0 := (lookupStore store (gi, pi)).getD (initState p.data.length) with hst0
          set r0 := updateOne sq h p.data g.vals st0 with hr0
          set store1 := insertStore store (gi, pi) r0.2 with hstore1
          obtain ⟨iherr, ihget⟩ := ih (pi + 1) store1 hdrest
          refine ⟨by simpa [runParams, hg, hs] using iherr, ?_⟩
          intro j q g' hj hgq
          match j with
          | 0 =>
              simp at hj
              rw [← hj] at hgq
              rw [hg] at hgq
              cases hgq
              refine ⟨?_, ?_⟩
              · simp [runParams, hg, hs, ← hj, ← hst0, ← hr0]
              · have hkey : ((gi, pi + 0) : Key) = (gi, pi) := by simp
                rw [hkey]
                have hstab := runParams_store_stable sq h gi rest (pi + 1) store1
                  (gi, pi) (Or.inr (by omega))
                simp only [runParams, hg, hs, if_neg Bool.false_ne_true]
                rw [← hstore1, hstab, hstore1, lookupStore_insertStore_self]
                simp [← hj, ← hst0, ← hr0]
          | j + 1 =>
              simp only [List.get?_cons_succ] at hj
              have harith : pi + (j + 1) = (pi + 1) + j := by omega
              have hne : ((gi, pi) : Key) ≠ (gi, (pi + 1) + j) := by
                intro he
                have := congrArg Prod.snd he
                simp at this
                omega
              obtain ⟨h1, h2⟩ := ihget j q g' hj hgq
              rw [hstore1, lookupStore_insertStore_ne _ _ _ _ hne] at h1 h2
              refine ⟨?_, ?_⟩
              · simpa [runParams, hg, hs, harith, ← hstore1] using h1
              · simpa [runParams, hg, hs, harith, ← hstore1] using h2

/-- A single-group step call applies the inner loop to the parameters of
the group, whether or not an error was raised. -/
theorem stepOnce_single_group (sq : ℚ → ℚ) (h : Hyper) (ps : List ParamData)
    (store : Store) :
    stepOnce sq ([⟨ps, h⟩], store) =
      ([⟨(runParams sq h 0 0 store ps).1, h⟩], (runParams sq h 0 0 store ps).2.1) := by
  by_cases he : (runParams sq h 0 0 store ps).2.2 <;>
    simp [stepOnce, runGroups, he]

/-- The inner loop leaves a parameter list with no present gradients, and
the store, untouched. -/
theorem runParams_all_absent (sq : ℚ → ℚ) (h : Hyper) (gi : ℕ)
    (ps : List ParamData) :
    ∀ (pi : ℕ) (store : Store), (∀ p ∈ ps, p.grad = none) →
      runParams sq h gi pi store ps = (ps, store, false) := by
  induction ps with
  | nil => intro pi store _; simp [runParams]
  | cons p rest ih =>
      intro pi store hall
      have hp : p.grad = none := hall p (List.mem_cons_self _ _)
      have hrest := ih (pi + 1) store
        (fun q hq => hall q (List.mem_cons_of_mem _ hq))
      simp [runParams, hp, hrest]

/-- The outer loop leaves groups with no present gradients untouched. -/
theorem runGroups_all_absent (sq : ℚ → ℚ) (gs : List Group) :
    ∀ (gi : ℕ) (store : Store), (∀ gr ∈ gs, ∀ p ∈ gr.params, p.grad = none) →
      runGroups sq gi store gs = (gs, store, false) := by
  induction gs with
  | nil => intro gi store _; simp [runGroups]
  | cons gr rest ih =>
      intro gi store hall
      have hgr := runParams_all_absent sq gr.hyper gi gr.params 0 store
        (hall gr (List.mem_cons_self _ _))
      have hrest := ih (gi + 1) store
        (fun q hq => hall q (List.mem_cons_of_mem _ hq))
      simp [runGroups, hgr, hrest]

/-- A parameter with an absent gradient is returned unchanged by the
inner loop and its key in the store keeps its binding, whatever happens
to the other parameters of the group. -/
theorem runParams_skip_absent (sq : ℚ → ℚ) (h : Hyper) (gi : ℕ)
    (ps : List ParamData) :
    ∀ (pi : ℕ) (store : Store) (j : ℕ) (p : ParamData),
      ps.get? j = some p → p.grad = none →
      (runParams sq h gi pi store ps).1.get? j = some p ∧
      lookupStore (runParams sq h gi pi store ps).2.1 (gi, pi + j) =
        lookupStore store (gi, pi + j) := by
  induction ps with
  | nil => intro pi store j p hj; simp at hj
  | cons q rest ih =>
      intro pi store j p hj hnone
      match j with
      | 0 =>
          simp at hj
          rw [← hj] at hnone ⊢
          refine ⟨by simp [runParams, hnone], ?_⟩
          simp only [runParams, hnone]
          exact runParams_store_stable sq h gi rest (pi + 1) store (gi, pi + 0)
            (Or.inr (by omega))
      | j + 1 =>
          simp only [List.get?_cons_succ] at hj
          have harith : pi + (j + 1) = (pi + 1) + j := by omega
          match hgq : q.grad with
          | none =>
              obtain ⟨h1, h2⟩ := ih (pi + 1) store j p hj hnone
              exact ⟨by simpa [runParams, hgq] using h1,
                by simpa [runParams, hgq, harith] using h2⟩
          | some g =>
              by_cases hsg : g.isSparse
              · refine ⟨?_, by simp [runParams, hgq, hsg]⟩
                have hkeep : (runParams sq h gi pi store (q :: rest)).1 = q :: rest := by
                  simp [runParams, hgq, hsg]
                rw [hkeep, List.get?_cons_succ]
                exact hj
              · set store1 := insertStore store (gi, pi)
                  (updateOne sq h q.data g.vals
                    ((lookupStore store (gi, pi)).getD (initState q.data.length))).2
                  with hstore1
                obtain ⟨h1, h2⟩ := ih (pi + 1) store1 j p hj hnone
                have hne : ((gi, pi) : Key) ≠ (gi, (pi + 1) + j) := by
                  intro he
                  have := congrArg Prod.snd he
                  simp at this
                  omega
                rw [hstore1, lookupStore_insertStore_ne _ _ _ _ hne] at h2
                refine ⟨?_, ?_⟩
                · simpa [runParams, hgq, hsg, ← hstore1] using h1
                · simpa [runParams, hgq, hsg, harith, ← hstore1] using h2

/-- C2: for a parameter updated with nonzero weightDecay, the decoupled
decay multiplies the value obtained after the gradient step by
1 - learningRate * weightDecay, so it acts on the post-step value; with
weightDecay zero, the parameter is exactly the post-step value. -/
theorem decay_acts_on_post_step_value (sq : ℚ → ℚ) (h : Hyper)
    (d gv : List ℚ) (st : PState) :
    (h.weightDecay ≠ 0 →
      (updateOne sq h d gv st).1 =
        (gradStep sq h d gv st).map (fun x => x * (1 - h.lr * h.weightDecay))) ∧
    (h.weightDecay = 0 →
      (updateOne sq h d gv st).1 = gradStep sq h d gv st) := by
  constructor
  · intro hwd
    simp only [updateOne, decay, if_pos hwd]
    exact List.map_congr_left (fun x _ => by ring)
  · intro hwd
    simp [updateOne, decay, hwd]

/-- Witness for C2 at concrete inputs. -/
theorem decay_acts_on_post_step_value_holds :
    ((1 : ℚ) / 100 ≠ 0 ∧
      (updateOne (fun x => x) ⟨1/10, 9/10, 999/1000, 1/1000000, 1/100, true⟩
          [1] [1/10] (initState 1)).1 =
        (gradStep (fun x => x) ⟨1/10, 9/10, 999/1000, 1/1000000, 1/100, true⟩
          [1] [1/10] (initState 1)).map
          (fun x => x * (1 - 1/10 * (1/100)))) ∧
    ((0 : ℚ) = 0 ∧
      (updateOne (fun x => x) ⟨1/10, 9/10, 999/1000, 1/1000000, 0, true⟩
          [1] [1/10] (initState 1)).1 =
        gradStep (fun x => x) ⟨1/10, 9/10, 999/1000, 1/1000000, 0, true⟩
          [1] [1/10] (initState 1)) :=
  ⟨⟨by norm_num,
    (decay_acts_on_post_step_value (fun x => x) _ [1] [1/10] (initState 1)).1
      (by norm_num)⟩,
   ⟨rfl,
    (decay_acts_on_post_step_value (fun x => x) _ [1] [1/10] (initState 1)).2
      rfl⟩⟩

/-- C3: the update subtracted from the parameter is built from the
bias-corrected moments at exponent t, the step count after incrementing;
with correctBias set the corrected moments divide by 1 - beta ^ t, and
with correctBias unset they are the raw moments; the two settings give
different parameter results on the first-step example of the
specification. -/
theorem bias_correction_toggle (sq : ℚ → ℚ) (h : Hyper) (d gv : List ℚ)
    (st : PState) :
    (updateOne sq h d gv st).1 =
      decay h (List.zipWith (fun x u => x - u) d
        (deltas sq h.lr h.eps
          (mHat h (st.step + 1) (ema1 h.beta1 st.m gv))
          (vHat h (st.step + 1) (ema2 h.beta2 st.v gv)))) ∧
    (h.correctBias = true → ∀ (t : ℕ) (l : List ℚ),
      mHat h t l = l.map (fun x => x / (1 - h.beta1 ^ t)) ∧
      vHat h t l = l.map (fun x => x / (1 - h.beta2 ^ t))) ∧
    (h.correctBias = false → ∀ (t : ℕ) (l : List ℚ),
      mHat h t l = l ∧ vHat h t l = l) ∧
    gradStep (fun x => x) ⟨1/10, 9/10, 999/1000, 1/1000000, 0, true⟩
        [1] [1/10] (initState 1) ≠
      gradStep (fun x => x) ⟨1/10, 9/10, 999/1000, 1/1000000, 0, false⟩
        [1] [1/10] (initState 1) := by
  refine ⟨rfl, ?_, ?_, ?_⟩
  · intro hcb t l
    exact ⟨by simp [mHat, hcb], by simp [vHat, hcb]⟩
  · intro hcb t l
    exact ⟨by simp [mHat, hcb], by simp [vHat, hcb]⟩
  · simp only [gradStep, initState, zeros, ema1, ema2, mHat, vHat, deltas]
    norm_num

/-- Witness for C3 at concrete inputs, exercising both settings. -/
theorem bias_correction_toggle_holds :
    ((updateOne (fun x => x) ⟨1/10, 9/10, 999/1000, 1/1000000, 0, true⟩
        [1] [1/10] (initState 1)).1 =
      decay ⟨1/10, 9/10, 999/1000, 1/1000000, 0, true⟩
        (List.zipWith (fun x u => x - u) [1]
          (deltas (fun x => x) (1/10) (1/1000000)
            (mHat ⟨1/10, 9/10, 999/1000, 1/1000000, 0, true⟩ 1
              (ema1 (9/10) (zeros 1) [1/10]))
            (vHat ⟨1/10, 9/10, 999/1000, 1/1000000, 0, true⟩ 1
              (ema2 (999/1000) (zeros 1) [1/10]))))) ∧
    (Hyper.correctBias ⟨1/10, 9/10, 999/1000, 1/1000000, 0, true⟩ = true ∧
      mHat ⟨1/10, 9/10, 999/1000, 1/1000000, 0, true⟩ 1 [1/100] =
        [1/100].map (fun x => x / (1 - (9/10 : ℚ) ^ 1))) ∧
    (Hyper.correctBias ⟨1/10, 9/10, 999/1000, 1/1000000, 0, false⟩ = false ∧
      mHat ⟨1/10, 9/10, 999/1000, 1/1000000, 0, false⟩ 1 [1/100] = [1/100]) :=
  ⟨(bias_correction_toggle (fun x => x) _ [1] [1/10] (initState 1)).1,
   ⟨rfl, ((bias_correction_toggle (fun x => x)
      ⟨1/10, 9/10, 999/1000, 1/1000000, 0, true⟩ [1] [1/10]
      (initState 1)).2.1 rfl 1 [1/100]).1⟩,
   ⟨rfl, ((bias_correction_toggle (fun x => x)
      ⟨1/10, 9/10, 999/1000, 1/1000000, 0, false⟩ [1] [1/10]
      (initState 1)).2.2.1 rfl 1 [1/100]).1⟩⟩

/-- C9: the state stored for a parameter after an update holds the raw
exponential moving averages and is independent of the correctBias
setting; the bias-corrected values are only computed into the update. -/
theorem stored_moments_are_raw (sq : ℚ → ℚ) (h : Hyper) (d gv : List ℚ)
    (st : PState) (cb cb' : Bool) :
    (updateOne sq h d gv st).2 =
      ⟨st.step + 1, ema1 h.beta1 st.m gv, ema2 h.beta2 st.v gv⟩ ∧
    (updateOne sq { h with correctBias := cb } d gv st).2 =
      (updateOne sq { h with correctBias := cb' } d gv st).2 :=
  ⟨rfl, rfl⟩

/-- C5: construction fails exactly when learningRate is negative, one of
the betas is outside the interval from 0 inclusive to 1 exclusive, or
epsilon is negative; the four failing examples fail and the default-like
configuration succeeds. -/
theorem construction_validation (lr b1 b2 eps wd : ℚ) (cb : Bool) :
    (initAdamW lr (b1, b2) eps wd cb = .error () ↔
      lr < 0 ∨ ¬(0 ≤ b1 ∧ b1 < 1) ∨ ¬(0 ≤ b2 ∧ b2 < 1) ∨ eps < 0) ∧
    initAdamW (-1/10) (9/10, 999/1000) (1/1000000) 0 true = .error () ∧
    initAdamW (1/1000) (1, 999/1000) (1/1000000) 0 true = .error () ∧
    initAdamW (1/1000) (9/10, -1/10) (1/1000000) 0 true = .error () ∧
    initAdamW (1/1000) (9/10, 999/1000) (-1/100000000) 0 true = .error () ∧
    initAdamW (1/1000) (9/10, 999/1000) (1/1000000) 0 true =
      .ok ⟨1/1000, 9/10, 999/1000, 1/1000000, 0, true⟩ := by
  refine ⟨?_, by norm_num [initAdamW], by norm_num [initAdamW],
    by norm_num [initAdamW], by norm_num [initAdamW], by norm_num [initAdamW]⟩
  simp only [initAdamW]
  split_ifs with h1 h2 h3 h4 <;> simp_all

/-- C10: weightDecay is not validated at construction: with the other
hyperparameters in range, construction succeeds for every weightDecay
value, negative included, and stores it unchanged. -/
theorem weight_decay_not_validated (lr b1 b2 eps wd : ℚ) (cb : Bool)
    (hlr : 0 ≤ lr) (hb1l : 0 ≤ b1) (hb1r : b1 < 1) (hb2l : 0 ≤ b2)
    (hb2r : b2 < 1) (heps : 0 ≤ eps) :
    initAdamW lr (b1, b2) eps wd cb = .ok ⟨lr, b1, b2, eps, wd, cb⟩ := by
  simp only [initAdamW]
  rw [if_neg (not_lt.mpr hlr), if_neg (not_not.mpr ⟨hb1l, hb1r⟩),
    if_neg (not_not.mpr ⟨hb2l, hb2r⟩), if_neg (not_not.mpr heps)]

/-- Witness for C10 at a negative weightDecay. -/
theorem weight_decay_not_validated_holds :
    (0 : ℚ) ≤ 1/1000 ∧ (0 : ℚ) ≤ 9/10 ∧ (9 : ℚ)/10 < 1 ∧ (0 : ℚ) ≤ 999/1000 ∧
      (999 : ℚ)/1000 < 1 ∧ (0 : ℚ) ≤ 1/1000000 ∧
      initAdamW (1/1000) (9/10, 999/1000) (1/1000000) (-5) true =
        .ok ⟨1/1000, 9/10, 999/1000, 1/1000000, -5, true⟩ :=
  ⟨by norm_num, by norm_num, by norm_num, by norm_num, by norm_num, by norm_num,
   weight_decay_not_validated (1/1000) (9/10) (999/1000) (1/1000000) (-5) true
     (by norm_num) (by norm_num) (by norm_num) (by norm_num) (by norm_num)
     (by norm_num)⟩

/-- A single-group step on one dense-gradient parameter in closed form. -/
theorem stepOnce_single_dense (sq : ℚ → ℚ) (h : Hyper) (d : List ℚ) (g : GradT)
    (hs : g.isSparse = false) (store : Store) :
    stepOnce sq ([⟨[⟨d, some g⟩], h⟩], store) =
      ([⟨[⟨(updateOne sq h d g.vals
            ((lookupStore store (0, 0)).getD (initState d.length))).1, some g⟩], h⟩],
       insertStore store (0, 0)
         (updateOne sq h d g.vals
           ((lookupStore store (0, 0)).getD (initState d.length))).2) := by
  simp [stepOnce, runGroups, runParams, hs]

/-- C1: one step call with every present gradient dense raises no error
and maps each parameter that has a gradient, independently of all the
others, to the result of one update application on its own data and its
own state: the new first moment is beta1 * m + (1 - beta1) * grad, the
new second moment is beta2 * v + (1 - beta2) * grad * grad, and the data
becomes param - delta with delta the elementwise learningRate * corrected
m over (sqrt of corrected v plus epsilon), before the decoupled decay. -/
theorem step_updates_each_dense_param (sq : ℚ → ℚ) (h : Hyper) (store : Store)
    (ps : List ParamData)
    (hd : ∀ p ∈ ps, ∀ g, p.grad = some g → g.isSparse = false) :
    (∀ (d gv : List ℚ) (st : PState),
      (updateOne sq h d gv st).2.m =
        List.zipWith (fun mi gi => h.beta1 * mi + (1 - h.beta1) * gi) st.m gv ∧
      (updateOne sq h d gv st).2.v =
        List.zipWith (fun vi gi => h.beta2 * vi + (1 - h.beta2) * (gi * gi)) st.v gv ∧
      gradStep sq h d gv st =
        List.zipWith (fun x u => x - u) d
          (deltas sq h.lr h.eps
            (mHat h (st.step + 1) ((updateOne sq h d gv st).2.m))
            (vHat h (st.step + 1) ((updateOne sq h d gv st).2.v)))) ∧
    (runParams sq h 0 0 store ps).2.2 = false ∧
    stepOnce sq ([⟨ps, h⟩], store) =
      ([⟨(runParams sq h 0 0 store ps).1, h⟩], (runParams sq h 0 0 store ps).2.1) ∧
    ∀ j p g, ps.get? j = some p → p.grad = some g →
      (runParams sq h 0 0 store ps).1.get? j = some { p with data :=
        (updateOne sq h p.data g.vals
          ((lookupStore store (0, j)).getD (initState p.data.length))).1 } ∧
      lookupStore (runParams sq h 0 0 store ps).2.1 (0, j) =
        some (updateOne sq h p.data g.vals
          ((lookupStore store (0, j)).getD (initState p.data.length))).2 := by
  obtain ⟨herr, hget⟩ := runParams_spec sq h 0 ps 0 store hd
  refine ⟨fun d gv st => ⟨rfl, rfl, rfl⟩, herr,
    stepOnce_single_group sq h ps store, ?_⟩
  intro j p g hj hg
  have hres := hget j p g hj hg
  simpa using hres

/-- Witness for C1 at concrete inputs. -/
theorem step_updates_each_dense_param_holds :
    (∀ p ∈ ([⟨[1], some ⟨false, [1/10]⟩⟩] : List ParamData),
        ∀ g, p.grad = some g → g.isSparse = false) ∧
    (runParams (fun x => x) ⟨1/10, 9/10, 999/1000, 1/1000000, 0, true⟩ 0 0 []
        [⟨[1], some ⟨false, [1/10]⟩⟩]).1.get? 0 =
      some ⟨(updateOne (fun x => x) ⟨1/10, 9/10, 999/1000, 1/1000000, 0, true⟩
          [1] [1/10] ((lookupStore [] (0, 0)).getD (initState 1))).1,
        some ⟨false, [1/10]⟩⟩ :=
  ⟨by simp, by
    have hth := step_updates_each_dense_param (fun x => x)
      ⟨1/10, 9/10, 999/1000, 1/1000000, 0, true⟩ []
      [⟨[1], some ⟨false, [1/10]⟩⟩] (by simp)
    have hres := (hth.2.2.2 0 ⟨[1], some ⟨false, [1/10]⟩⟩ ⟨false, [1/10]⟩ rfl rfl).1
    simpa using hres⟩

/-- C4: for a single parameter whose dense gradient stays present, no
state exists before the first step call, the first call creates the state
from step count 0 and zero moments of the parameter length, and after n
consecutive calls the stored step count is exactly n. -/
theorem lazy_state_and_exact_step_count (sq : ℚ → ℚ) (h : Hyper) (d : List ℚ)
    (g : GradT) (hs : g.isSparse = false) :
    initState d.length = ⟨0, zeros d.length, zeros d.length⟩ ∧
    (stepIter sq 0 ([⟨[⟨d, some g⟩], h⟩], [])).2 = [] ∧
    lookupStore (stepIter sq 1 ([⟨[⟨d, some g⟩], h⟩], [])).2 (0, 0) =
      some (updateOne sq h d g.vals (initState d.length)).2 ∧
    ∀ n, 1 ≤ n → ∃ st : PState,
      lookupStore (stepIter sq n ([⟨[⟨d, some g⟩], h⟩], [])).2 (0, 0) = some st ∧
      st.step = n := by
  have key : ∀ n, 1 ≤ n → ∃ d' st, stepIter sq n ([⟨[⟨d, some g⟩], h⟩], []) =
      ([⟨[⟨d', some g⟩], h⟩], [((0, 0), st)]) ∧ st.step = n := by
    intro n hn
    induction n, hn using Nat.le_induction with
    | base =>
        refine ⟨(updateOne sq h d g.vals (initState d.length)).1,
          (updateOne sq h d g.vals (initState d.length)).2, ?_, rfl⟩
        show stepOnce sq ([⟨[⟨d, some g⟩], h⟩], []) = _
        rw [stepOnce_single_dense sq h d g hs []]
        rfl
    | succ n hn ih =>
        obtain ⟨d', st, hshape, hstep⟩ := ih
        refine ⟨(updateOne sq h d' g.vals st).1, (updateOne sq h d' g.vals st).2,
          ?_, ?_⟩
        · show stepOnce sq (stepIter sq n ([⟨[⟨d, some g⟩], h⟩], [])) = _
          rw [hshape, stepOnce_single_dense sq h d' g hs]
          simp [lookupStore, insertStore]
        · simp [updateOne, hstep]
  refine ⟨rfl, rfl, ?_, ?_⟩
  · show lookupStore (stepOnce sq ([⟨[⟨d, some g⟩], h⟩], [])).2 (0, 0) = _
    rw [stepOnce_single_dense sq h d g hs []]
    rfl
  · intro n hn
    obtain ⟨d', st, hshape, hstep⟩ := key n hn
    exact ⟨st, by rw [hshape]; simp [lookupStore], hstep⟩

/-- Witness for C4 at concrete inputs and two consecutive calls. -/
theorem lazy_state_and_exact_step_count_holds :
    (⟨false, [1/10]⟩ : GradT).isSparse = false ∧
    (∃ st : PState,
      lookupStore (stepIter (fun x => x) 2
        ([⟨[⟨[1], some ⟨false, [1/10]⟩⟩], ⟨1/10, 9/10, 999/1000, 1/1000000, 0, true⟩⟩],
          [])).2 (0, 0) = some st ∧ st.step = 2) :=
  ⟨rfl, (lazy_state_and_exact_step_count (fun x => x)
    ⟨1/10, 9/10, 999/1000, 1/1000000, 0, true⟩ [1] ⟨false, [1/10]⟩ rfl).2.2.2 2
    (by norm_num)⟩

/-- C6: when the second parameter of the first group carries a sparse
gradient, the step aborts with the error raised there: the first
parameter keeps its completed update and its new state, while the failing
parameter, the later parameter, all later groups and the key of the
failing parameter in the store are left untouched. -/
theorem sparse_gradient_fail_fast (sq : ℚ → ℚ) (h : Hyper) (store : Store)
    (d1 : List ℚ) (g1 : GradT) (p2 p3 : ParamData) (g2 : GradT)
    (rest : List Group)
    (h1 : g1.isSparse = false) (h2 : p2.grad = some g2)
    (hs2 : g2.isSparse = true) :
    runGroups sq 0 store (⟨[⟨d1, some g1⟩, p2, p3], h⟩ :: rest) =
      (⟨[⟨(updateOne sq h d1 g1.vals
            ((lookupStore store (0, 0)).getD (initState d1.length))).1, some g1⟩,
          p2, p3], h⟩ :: rest,
       insertStore store (0, 0)
         (updateOne sq h d1 g1.vals
           ((lookupStore store (0, 0)).getD (initState d1.length))).2,
       true) ∧
    lookupStore (insertStore store (0, 0)
        (updateOne sq h d1 g1.vals
          ((lookupStore store (0, 0)).getD (initState d1.length))).2) (0, 1) =
      lookupStore store (0, 1) := by
  constructor
  · simp [runGroups, runParams, h1, h2, hs2]
  · exact lookupStore_insertStore_ne _ _ _ _ (by decide)

/-- Witness for C6 at concrete inputs. -/
theorem sparse_gradient_fail_fast_holds :
    (⟨false, [1/10]⟩ : GradT).isSparse = false ∧
    (⟨[2], some ⟨true, [1]⟩⟩ : ParamData).grad = some ⟨true, [1]⟩ ∧
    (⟨true, [1]⟩ : GradT).isSparse = true ∧
    lookupStore (insertStore [] (0, 0)
        (updateOne (fun x => x) ⟨1/10, 9/10, 999/1000, 1/1000000, 0, true⟩
          [1] [1/10] ((lookupStore [] (0, 0)).getD (initState ([1] : List ℚ).length))).2)
      (0, 1) = lookupStore [] (0, 1) :=
  ⟨rfl, rfl, rfl,
    (sparse_gradient_fail_fast (fun x => x) ⟨1/10, 9/10, 999/1000, 1/1000000, 0, true⟩
      [] [1] ⟨false, [1/10]⟩ ⟨[2], some ⟨true, [1]⟩⟩ ⟨[3], none⟩ ⟨true, [1]⟩ []
      rfl rfl rfl).2⟩

/-- C7: a parameter whose gradient is absent comes out of a step call
unchanged and its key in the store keeps its binding, whatever the other
parameters of the group do; and a world in which every gradient is absent
is left completely unchanged by any number of step calls. -/
theorem absent_gradient_skip (sq : ℚ → ℚ) (h : Hyper) (ps : List ParamData)
    (store : Store) (j : ℕ) (p : ParamData)
    (hj : ps.get? j = some p) (hnone : p.grad = none)
    (gs : List Group) (store2 : Store)
    (hall : ∀ gr ∈ gs, ∀ q ∈ gr.params, q.grad = none) :
    ((stepOnce sq ([⟨ps, h⟩], store)).1 = [⟨(runParams sq h 0 0 store ps).1, h⟩] ∧
     (runParams sq h 0 0 store ps).1.get? j = some p ∧
     lookupStore (stepOnce sq ([⟨ps, h⟩], store)).2 (0, j) =
       lookupStore store (0, j)) ∧
    ∀ n, stepIter sq n (gs, store2) = (gs, store2) := by
  obtain ⟨hkeep, hstable⟩ := runParams_skip_absent sq h 0 ps 0 store j p hj hnone
  constructor
  · refine ⟨by rw [stepOnce_single_group], hkeep, ?_⟩
    rw [stepOnce_single_group]
    simpa using hstable
  · intro n
    induction n with
    | zero => rfl
    | succ n ih =>
        show stepOnce sq (stepIter sq n (gs, store2)) = (gs, store2)
        rw [ih]
        simp [stepOnce, runGroups_all_absent sq gs 0 store2 hall]

/-- Witness for C7 at concrete inputs and three repeated calls. -/
theorem absent_gradient_skip_holds :
    ([⟨[5], none⟩] : List ParamData).get? 0 = some ⟨[5], none⟩ ∧
    (⟨[5], none⟩ : ParamData).grad = none ∧
    (∀ gr ∈ ([⟨[⟨[5], none⟩], ⟨1/10, 9/10, 999/1000, 1/1000000, 0, true⟩⟩] :
        List Group), ∀ q ∈ gr.params, q.grad = none) ∧
    (runParams (fun x => x) ⟨1/10, 9/10, 999/1000, 1/1000000, 0, true⟩ 0 0 []
        [⟨[5], none⟩]).1.get? 0 = some ⟨[5], none⟩ ∧
    stepIter (fun x => x) 3
        ([⟨[⟨[5], none⟩], ⟨1/10, 9/10, 999/1000, 1/1000000, 0, true⟩⟩], []) =
      ([⟨[⟨[5], none⟩], ⟨1/10, 9/10, 999/1000, 1/1000000, 0, true⟩⟩], []) := by
  have hth := absent_gradient_skip (fun x => x)
    ⟨1/10, 9/10, 999/1000, 1/1000000, 0, true⟩ [⟨[5], none⟩] [] 0 ⟨[5], none⟩
    rfl rfl [⟨[⟨[5], none⟩], ⟨1/10, 9/10, 999/1000, 1/1000000, 0, true⟩⟩] []
    (by simp)
  exact ⟨rfl, rfl, by simp, hth.1.2.1, hth.2 3⟩

/-- C8: with a closure, step evaluates it exactly once on the pre-update
world, runs the update loops on the groups it returns, and propagates its
first component as the returned loss; without a closure, step runs the
update loops on the given groups and returns no loss. -/
theorem closure_once_before_updates {α : Type} (sq : ℚ → ℚ)
    (c : List Group → α × List Group) (gs : List Group) (store : Store) :
    step sq (some c) gs store =
      ⟨(runGroups sq 0 store (c gs).2).1, (runGroups sq 0 store (c gs).2).2.1,
        (runGroups sq 0 store (c gs).2).2.2, some (c gs).1⟩ ∧
    step sq (none : Option (List Group → α × List Group)) gs store =
      ⟨(runGroups sq 0 store gs).1, (runGroups sq 0 store gs).2.1,
        (runGroups sq 0 store gs).2.2, none⟩ :=
  ⟨rfl, rfl⟩

end AdamW
